import Mathlib

/-!
Verification of the Markdown-to-PDF converter backend (src/backend/main.py).

Strings are modelled as lists of Unicode code points (`List Char`), which is
exactly what a Python `str` is.  Each definition mirrors one Python function
or regex from the source; the original construct is cited in a comment.
-/

namespace MdPdf

/-- Characters matched by Python's regex class `\s` on `str` (also the set
stripped by `str.strip()` / tested by `str.isspace()`): the Unicode
whitespace characters. -/
def pySpace (c : Char) : Bool :=
  c = ' ' ∨ c = '\t' ∨ c = '\n' ∨ c = '\x0b' ∨ c = '\x0c' ∨ c = '\r' ∨
  c = '\x1c' ∨ c = '\x1d' ∨ c = '\x1e' ∨ c = '\x1f' ∨ c = '\x85' ∨
  c = '\xa0' ∨ c = '\u1680' ∨ c = '\u2000' ∨ c = '\u2001' ∨ c = '\u2002' ∨
  c = '\u2003' ∨ c = '\u2004' ∨ c = '\u2005' ∨ c = '\u2006' ∨ c = '\u2007' ∨
  c = '\u2008' ∨ c = '\u2009' ∨ c = '\u200a' ∨ c = '\u2028' ∨ c = '\u2029' ∨
  c = '\u202f' ∨ c = '\u205f' ∨ c = '\u3000'

/-- Line-boundary characters recognized by Python's `str.splitlines()`
(`\r\n` is additionally treated as a single boundary). -/
def isLineBoundary (c : Char) : Bool :=
  c = '\n' ∨ c = '\r' ∨ c = '\x0b' ∨ c = '\x0c' ∨
  c = '\x1c' ∨ c = '\x1d' ∨ c = '\x1e' ∨ c = '\x85' ∨
  c = '\u2028' ∨ c = '\u2029'

/-- Worker for `splitlines`: accumulates the current line (reversed) and
splits at every line boundary, treating `\r\n` as one boundary and not
producing a final empty line after a trailing boundary. -/
def splitlinesAux : List Char → List Char → List (List Char)
  | [], cur => [cur.reverse]
  | [c], cur =>
      if isLineBoundary c then [cur.reverse] else [(c :: cur).reverse]
  | c :: c2 :: cs, cur =>
      if c = '\r' ∧ c2 = '\n' then
        cur.reverse :: (if cs.isEmpty then [] else splitlinesAux cs [])
      else if isLineBoundary c then
        cur.reverse :: splitlinesAux (c2 :: cs) []
      else splitlinesAux (c2 :: cs) (c :: cur)

/-- Python `str.splitlines()` (used as `content.splitlines()` in
`normalize_markdown_bullets`). -/
def splitlines (s : List Char) : List (List Char) :=
  if s.isEmpty then [] else splitlinesAux s []

/-- Python `str.startswith` on lists of characters. -/
def startsWith : List Char → List Char → Bool
  | _, [] => true
  | [], _ :: _ => false
  | c :: cs, p :: ps => c = p && startsWith cs ps

/-- The bullet-like glyph class `[–—•∙·‣]` of `normalize_markdown_bullets`. -/
def isBulletGlyph (c : Char) : Bool :=
  c = '–' ∨ c = '—' ∨ c = '•' ∨ c = '∙' ∨
  c = '·' ∨ c = '‣'

/-- The substitution `re.sub(r"^(\s*)[–—•∙·‣]\s*", r"\1- ", line, count=1)`,
guarded by `re.match(r"^\s*[–—•∙·‣]", line)`; greedy `\s*` over a class
disjoint from the glyphs is leading-whitespace take/drop. -/
def glyphFix (l : List Char) : List Char :=
  match l.dropWhile pySpace with
  | c :: cs => if isBulletGlyph c
               then l.takeWhile pySpace ++ '-' :: ' ' :: cs.dropWhile pySpace
               else l
  | [] => l

/-- The substitution `re.sub(r"^(\s*)-(?!\s)(.*)$", r"\1- \2", line)`; the
negative lookahead also succeeds at end of string, so a bare "-" becomes
"- ". -/
def dashFix (l : List Char) : List Char :=
  match l.dropWhile pySpace with
  | c :: cs =>
      if c = '-' then
        match cs with
        | [] => l.takeWhile pySpace ++ ['-', ' ']
        | c2 :: _ =>
            if pySpace c2 then l else l.takeWhile pySpace ++ '-' :: ' ' :: cs
      else l
  | [] => l

/-- The regex `re.compile(r"^\s*(```|~~~)")` applied with `.match`. -/
def matchFence (l : List Char) : Bool :=
  startsWith (l.dropWhile pySpace) ['`', '`', '`'] ||
  startsWith (l.dropWhile pySpace) ['~', '~', '~']

/-- The regex `re.compile(r"^\s*#{1,6}\s+")` applied with `.match`: after
optional whitespace, the full leading run of at most six hash marks must be
followed by a whitespace character. -/
def matchHeading (l : List Char) : Bool :=
  let rest := l.dropWhile pySpace
  let n := (rest.takeWhile (fun c => c = '#')).length
  decide (1 ≤ n) && decide (n ≤ 6) &&
    (match rest.drop n with
     | c :: _ => pySpace c
     | [] => false)

/-- The decimal-digit ranges of the Unicode database (category Nd), as
pairs of code points. -/
def ndRanges : List (Nat × Nat) :=
  [(0x30, 0x39), (0x660, 0x669), (0x6F0, 0x6F9), (0x7C0, 0x7C9),
   (0x966, 0x96F), (0x9E6, 0x9EF), (0xA66, 0xA6F), (0xAE6, 0xAEF),
   (0xB66, 0xB6F), (0xBE6, 0xBEF), (0xC66, 0xC6F), (0xCE6, 0xCEF),
   (0xD66, 0xD6F), (0xDE6, 0xDEF), (0xE50, 0xE59), (0xED0, 0xED9),
   (0xF20, 0xF29), (0x1040, 0x1049), (0x1090, 0x1099), (0x17E0, 0x17E9),
   (0x1810, 0x1819), (0x1946, 0x194F), (0x19D0, 0x19D9), (0x1A80, 0x1A89),
   (0x1A90, 0x1A99), (0x1B50, 0x1B59), (0x1BB0, 0x1BB9), (0x1C40, 0x1C49),
   (0x1C50, 0x1C59), (0xA620, 0xA629), (0xA8D0, 0xA8D9), (0xA900, 0xA909),
   (0xA9D0, 0xA9D9), (0xA9F0, 0xA9F9), (0xAA50, 0xAA59), (0xABF0, 0xABF9),
   (0xFF10, 0xFF19), (0x104A0, 0x104A9), (0x10D30, 0x10D39),
   (0x11066, 0x1106F), (0x110F0, 0x110F9), (0x11136, 0x1113F),
   (0x111D0, 0x111D9), (0x112F0, 0x112F9), (0x11450, 0x11459),
   (0x114D0, 0x114D9), (0x11650, 0x11659), (0x116C0, 0x116C9),
   (0x11730, 0x11739), (0x118E0, 0x118E9), (0x11950, 0x11959),
   (0x11C50, 0x11C59), (0x11D50, 0x11D59), (0x11DA0, 0x11DA9),
   (0x16A60, 0x16A69), (0x16AC0, 0x16AC9), (0x16B50, 0x16B59),
   (0x1D7CE, 0x1D7FF), (0x1E140, 0x1E149), (0x1E2F0, 0x1E2F9),
   (0x1E950, 0x1E959), (0x1FBF0, 0x1FBF9)]

/-- The regex class `\d` on a Python `str` pattern: any Unicode decimal
digit (category Nd), e.g. U+0663 as well as 0-9. -/
def pyDigit (c : Char) : Bool :=
  ndRanges.any (fun p => p.1 ≤ c.toNat ∧ c.toNat ≤ p.2)

/-- The regex `re.compile(r"^\s*([-*+]\s|\d+\.\s)")` applied with
`.match`. -/
def matchListStart (l : List Char) : Bool :=
  let rest := l.dropWhile pySpace
  match rest with
  | [] => false
  | c :: cs =>
      if c = '-' ∨ c = '*' ∨ c = '+' then
        match cs with
        | c2 :: _ => pySpace c2
        | [] => false
      else
        let ds := rest.takeWhile pyDigit
        !ds.isEmpty &&
          (match rest.drop ds.length with
           | d :: c2 :: _ => d = '.' && pySpace c2
           | _ => false)

/-- Main loop of `normalize_markdown_bullets` (main.py lines 74-98): one
pass over the split lines with the fence bit, the raw previous line and the
list of already-emitted lines as state. -/
def normLoop : List (List Char) → Bool → List Char → List (List Char) → List (List Char)
  | [], _, _, acc => acc
  | raw :: rest, insideFence, prevRaw, acc =>
      if matchFence raw then
        normLoop rest (!insideFence) raw (acc ++ [raw])
      else if insideFence then
        normLoop rest insideFence raw (acc ++ [raw])
      else
        let line := dashFix (glyphFix raw)
        let acc1 :=
          if !prevRaw.isEmpty && matchHeading prevRaw && matchListStart line &&
             !acc.isEmpty && !(decide (acc.getLast? = some ([] : List Char))) then
            acc ++ [([] : List Char)]
          else acc
        normLoop rest insideFence raw (acc1 ++ [line])

/-- Python `normalize_markdown_bullets` (main.py lines 54-100): split into
lines, run the loop from closed-fence/empty-previous state, and rejoin with
a single newline separator. -/
def normalize_markdown_bullets (content : List Char) : List Char :=
  if content.isEmpty then content
  else List.intercalate ['\n'] (normLoop (splitlines content) false [] [])

/-- Emitted lines of `normLoop` presented without the accumulator: the last
already-emitted line, which the blank-insertion test inspects, is carried as
an `Option`. -/
def normEmits : List (List Char) → Bool → List Char → Option (List Char) → List (List Char)
  | [], _, _, _ => []
  | raw :: rest, insideFence, prevRaw, lastEmit =>
      if matchFence raw then raw :: normEmits rest (!insideFence) raw (some raw)
      else if insideFence then raw :: normEmits rest insideFence raw (some raw)
      else
        let line := dashFix (glyphFix raw)
        let blanks : List (List Char) :=
          if !prevRaw.isEmpty && matchHeading prevRaw && matchListStart line &&
             !(decide (lastEmit = none)) &&
             !(decide (lastEmit = some ([] : List Char))) then
            [([] : List Char)]
          else []
        blanks ++ line :: normEmits rest insideFence raw (some line)

/-- The per-line transformation component of the normalizer on its own: each
input line mapped through the fence-aware emission, with no blank lines
inserted. -/
def emitLines : List (List Char) → Bool → List (List Char)
  | [], _ => []
  | raw :: rest, insideFence =>
      if matchFence raw then raw :: emitLines rest (!insideFence)
      else if insideFence then raw :: emitLines rest insideFence
      else dashFix (glyphFix raw) :: emitLines rest insideFence

/-- Relation holding when the second list is the first with zero or more
empty lines inserted at arbitrary positions. -/
inductive InsertBlanks : List (List Char) → List (List Char) → Prop where
  | nil : InsertBlanks [] []
  | keep (x : List Char) (xs ys : List (List Char)) :
      InsertBlanks xs ys → InsertBlanks (x :: xs) (x :: ys)
  | blank (xs ys : List (List Char)) :
      InsertBlanks xs ys → InsertBlanks xs (([] : List Char) :: ys)

/-- Python `str.strip()` on a line: drop Unicode whitespace at both ends. -/
def pyStrip (l : List Char) : List Char :=
  ((l.dropWhile pySpace).reverse.dropWhile pySpace).reverse

/-- Python `content.split('\n')` from `convert_to_docx`: separator-exact
split on the newline character (an empty string yields one empty part). -/
def splitNL : List Char → List (List Char)
  | [] => [[]]
  | '\n' :: cs => [] :: splitNL cs
  | c :: cs =>
      match splitNL cs with
      | p :: ps => (c :: p) :: ps
      | [] => [[c]]

/-- A run added to a docx paragraph: plain text or text with bold set. -/
inductive Run where
  | plain (s : List Char)
  | bold (s : List Char)
deriving DecidableEq

/-- A node emitted into the docx document: `doc.add_heading` (with level) or
`doc.add_paragraph` (with its runs). -/
inductive Block where
  | heading (text : List Char) (level : Nat)
  | para (runs : List Run)
deriving DecidableEq

/-- Python `'**' in text`. -/
def hasStarStar : List Char → Bool
  | '*' :: '*' :: _ => true
  | _ :: cs => hasStarStar cs
  | [] => false

/-- Python `text.split('**')`: split on non-overlapping occurrences of the
double asterisk, scanning left to right. -/
def splitStarStar : List Char → List (List Char)
  | '*' :: '*' :: cs => [] :: splitStarStar cs
  | c :: cs =>
      match splitStarStar cs with
      | p :: ps => (c :: p) :: ps
      | [] => [[c]]
  | [] => [[]]

/-- The `for i, part in enumerate(parts)` loop of `convert_to_docx`: runs at
even positions are plain, runs at odd positions have bold set. -/
def runsOfParts : Nat → List (List Char) → List Run
  | _, [] => []
  | i, p :: ps =>
      (if i % 2 = 0 then Run.plain p else Run.bold p) :: runsOfParts (i + 1) ps

/-- Paragraph-run construction of `convert_to_docx` (main.py lines 495-505). -/
def boldRuns (text : List Char) : List Run :=
  if hasStarStar text then runsOfParts 0 (splitStarStar text)
  else [Run.plain text]

/-- Branch structure of the `convert_to_docx` line loop applied to an
already-stripped line: skip blanks, 1-4 hash headings tested in order, skip
lines starting with a backtick fence marker, otherwise a paragraph of
bold-split runs. -/
def docxClassify (line : List Char) : Option Block :=
  if line.isEmpty then none
  else if startsWith line ['#', ' '] then some (Block.heading (line.drop 2) 1)
  else if startsWith line ['#', '#', ' '] then some (Block.heading (line.drop 3) 2)
  else if startsWith line ['#', '#', '#', ' '] then some (Block.heading (line.drop 4) 3)
  else if startsWith line ['#', '#', '#', '#', ' '] then some (Block.heading (line.drop 5) 4)
  else if startsWith line ['`', '`', '`'] then none
  else some (Block.para (boldRuns line))

/-- Per-line behavior of `convert_to_docx` (main.py lines 473-505): strip,
then classify. -/
def docxLineModel (rawLine : List Char) : Option Block :=
  docxClassify (pyStrip rawLine)

/-- The line loop of `convert_to_docx` over the already-split lines. -/
def buildDocx (ls : List (List Char)) : List Block :=
  ls.filterMap docxLineModel

/-- Document produced by `convert_to_docx`: the request title as a level-0
heading, then the classified content lines. -/
def convert_to_docx_blocks (title content : List Char) : List Block :=
  Block.heading title 0 :: buildDocx (splitNL content)

/-- An entry of the process-wide `temp_files` registry: storage path and the
download filename recorded at generation time. -/
structure FileEntry where
  path : List Char
  filename : List Char
deriving DecidableEq

/-- Result of the download endpoint: an HTTP 404 outcome or a file response
carrying path and suggested filename. -/
inductive DownloadResponse where
  | notFound404
  | fileResponse (path : List Char) (filename : List Char)
deriving DecidableEq

/-- Lookup `file_id in temp_files` / `temp_files[file_id]` over the registry
modelled as an association list (first match wins). -/
def findEntry : List (List Char × FileEntry) → List Char → Option FileEntry
  | [], _ => none
  | (k, v) :: rest, fileId => if k = fileId then some v else findEntry rest fileId

/-- Python `download_file` (main.py lines 530-546): 404 when the identifier
is not registered, 404 when the registered path is gone from disk
(`os.path.exists` is passed in as `onDisk`), otherwise the file response. -/
def download_file (tempFiles : List (List Char × FileEntry))
    (onDisk : List Char → Bool) (fileId : List Char) : DownloadResponse :=
  match findEntry tempFiles fileId with
  | none => DownloadResponse.notFound404
  | some info =>
      if onDisk info.path then DownloadResponse.fileResponse info.path info.filename
      else DownloadResponse.notFound404

/-- Python `title.replace(' ', '_')` used when registering an artifact. -/
def underscoreTitle (title : List Char) : List Char :=
  title.map (fun c => if c = ' ' then '_' else c)

/-- Registration step `temp_files[file_id] = ...` shared by the PDF and DOCX
paths: record the storage path and the filename derived from the title plus
the format-specific extension. -/
def storeEntry (tempFiles : List (List Char × FileEntry))
    (fileId filePath title ext : List Char) : List (List Char × FileEntry) :=
  (fileId, ⟨filePath, underscoreTitle title ++ ext⟩) :: tempFiles

/-- Modelled from the spec: the markup tokens of the HTML sanitizer.  The
sanitizing engine itself (the `bleach.clean` call's implementation) is not
part of the repository source; only its configuration (tag and attribute
allow-lists, strip mode) appears in `convert_to_html`.  A token is a text
code point, an opening tag with its attributes, or a closing tag. -/
inductive Tok where
  | txt (c : Char)
  | tagO (name : List Char) (attrs : List (List Char × List Char))
  | tagC (name : List Char)
deriving DecidableEq

/-- Characters usable in a tag name (letters and digits, e.g. `h1`). -/
def tagNameChar (c : Char) : Bool :=
  c.isAlpha || c.isDigit

/-- Characters usable in an attribute name. -/
def attrNameChar (c : Char) : Bool :=
  c.isAlpha || c.isDigit || c = '-'

/-- Modelled from the spec: attribute scanning of the sanitizer's HTML
reader.  Repeatedly skips spaces and reads `name`, `name=value` or
`name="value"` pairs until the closing angle bracket; a malformed tail
(no closing bracket, unterminated quote, stray character) rejects the
whole tag, which is then treated as literal text. -/
def parseAttrs : Nat → List Char → Option (List (List Char × List Char) × List Char)
  | 0, _ => none
  | fuel + 1, cs =>
      let cs1 := cs.dropWhile (fun c => c = ' ')
      match cs1 with
      | '>' :: rest => some ([], rest)
      | '/' :: '>' :: rest => some ([], rest)
      | _ =>
          let an := cs1.takeWhile attrNameChar
          if an.isEmpty then none
          else
            let nm := an.map Char.toLower
            match cs1.drop an.length with
            | '=' :: '"' :: cs3 =>
                let v := cs3.takeWhile (fun c => !(c = '"'))
                (match cs3.drop v.length with
                 | '"' :: cs4 =>
                     (parseAttrs fuel cs4).map (fun pr => ((nm, v) :: pr.1, pr.2))
                 | _ => none)
            | '=' :: cs3 =>
                let v := cs3.takeWhile (fun c => !(c = ' ') && !(c = '>'))
                (parseAttrs fuel (cs3.drop v.length)).map
                  (fun pr => ((nm, v) :: pr.1, pr.2))
            | cs2 =>
                (parseAttrs fuel cs2).map (fun pr => ((nm, []) :: pr.1, pr.2))

/-- Modelled from the spec: reading one tag after an opening angle bracket.
Tag names are case-folded; a name must start with a letter; anything
malformed yields `none` so the bracket is kept as text. -/
def parseTag (cs : List Char) : Option (Tok × List Char) :=
  match cs with
  | '/' :: cs1 =>
      let nm := cs1.takeWhile tagNameChar
      if nm.isEmpty then none
      else
        (match (cs1.drop nm.length).dropWhile (fun c => c = ' ') with
         | '>' :: rest => some (Tok.tagC (nm.map Char.toLower), rest)
         | _ => none)
  | c :: _ =>
      if c.isAlpha then
        let nm := cs.takeWhile tagNameChar
        match parseAttrs (cs.length + 1) (cs.drop nm.length) with
        | some (attrs, rest) => some (Tok.tagO (nm.map Char.toLower) attrs, rest)
        | none => none
      else none
  | [] => none

/-- Modelled from the spec: the sanitizer's tokenizer.  An opening angle
bracket starts a tag when one parses, and is ordinary text otherwise; every
other code point is text.  The fuel argument only bounds recursion and is
always ample. -/
def tokenizeAux : Nat → List Char → List Tok
  | 0, _ => []
  | _ + 1, [] => []
  | fuel + 1, '<' :: cs =>
      (match parseTag cs with
       | some (t, rest) => t :: tokenizeAux fuel rest
       | none => Tok.txt '<' :: tokenizeAux fuel cs)
  | fuel + 1, c :: cs => Tok.txt c :: tokenizeAux fuel cs

/-- Tokenize a whole input. -/
def tokenize (s : List Char) : List Tok :=
  tokenizeAux (s.length + 1) s

/-- The `allowed_tags` list passed to the sanitizer in `convert_to_html`
(main.py lines 133-140). -/
def allowedTags : List (List Char) :=
  ["h1", "h2", "h3", "h4", "h5", "h6",
   "p", "br", "strong", "em", "u", "s",
   "ul", "ol", "li", "blockquote",
   "code", "pre", "div", "span",
   "table", "thead", "tbody", "tr", "th", "td",
   "a", "img"].map String.toList

/-- The `allowed_attributes` mapping passed to the sanitizer in
`convert_to_html` (main.py lines 142-149). -/
def allowedAttr (t a : List Char) : Bool :=
  (t = "a".toList && (a = "href".toList || a = "title".toList)) ||
  (t = "img".toList && (a = "src".toList || a = "alt".toList || a = "title".toList)) ||
  (t = "div".toList && a = "class".toList) ||
  (t = "span".toList && a = "class".toList) ||
  (t = "pre".toList && a = "class".toList) ||
  (t = "code".toList && a = "class".toList)

/-- Modelled from the spec: the allow-list filter with `strip=True`.  A tag
outside the allow-list is removed, not escaped, and its nested content stays
in the stream; attributes outside the per-tag allow-list are dropped. -/
def filterToks : List Tok → List Tok
  | [] => []
  | Tok.txt c :: rest => Tok.txt c :: filterToks rest
  | Tok.tagO nm attrs :: rest =>
      if nm ∈ allowedTags then
        Tok.tagO nm (attrs.filter (fun p => allowedAttr nm p.1)) :: filterToks rest
      else filterToks rest
  | Tok.tagC nm :: rest =>
      if nm ∈ allowedTags then Tok.tagC nm :: filterToks rest
      else filterToks rest

/-- Markup-significant code points in text are re-escaped on output. -/
def escapeChar (c : Char) : List Char :=
  if c = '<' then "&lt;".toList
  else if c = '>' then "&gt;".toList
  else if c = '&' then "&amp;".toList
  else [c]

/-- Attribute values additionally escape the double quote. -/
def escAttrChar (c : Char) : List Char :=
  if c = '"' then "&quot;".toList else escapeChar c

/-- Escape a whole attribute value. -/
def escAttr (v : List Char) : List Char :=
  List.flatten (v.map escAttrChar)

/-- Serialize the kept attributes of a tag. -/
def serializeAttrs (attrs : List (List Char × List Char)) : List Char :=
  List.flatten (attrs.map (fun p => ' ' :: p.1 ++ '=' :: '"' :: escAttr p.2 ++ ['"']))

/-- Modelled from the spec: serializing one kept token back to markup. -/
def serializeTok : Tok → List Char
  | Tok.txt c => escapeChar c
  | Tok.tagO nm attrs => '<' :: nm ++ serializeAttrs attrs ++ ['>']
  | Tok.tagC nm => '<' :: '/' :: nm ++ ['>']

/-- Serialize a token stream. -/
def serializeToks (ts : List Tok) : List Char :=
  List.flatten (ts.map serializeTok)

/-- Modelled from the spec: the sanitization applied to parser output on the
preview path, i.e. the `bleach.clean(html, tags=..., attributes=...,
strip=True)` call of `convert_to_html`. -/
def sanitizeHtml (s : List Char) : List Char :=
  serializeToks (filterToks (tokenize s))

/-- Validity of a token surviving the filter: tag names are allow-listed
and attributes are allow-listed for their tag. -/
def keptTok : Tok → Prop
  | Tok.txt _ => True
  | Tok.tagO nm attrs => nm ∈ allowedTags ∧ ∀ p ∈ attrs, allowedAttr nm p.1 = true
  | Tok.tagC nm => nm ∈ allowedTags

/-- Position `i` of `out` carries an opening angle bracket that begins an
allow-listed opening or closing tag. -/
def startsAllowedTag (out : List Char) (i : Nat) : Prop :=
  ∃ t, t ∈ allowedTags ∧
    ((∃ u, out.drop i = '<' :: (t ++ '>' :: u)) ∨
     (∃ u, out.drop i = '<' :: (t ++ ' ' :: u)) ∨
     (∃ u, out.drop i = '<' :: '/' :: (t ++ '>' :: u)))

/-! ### Helper lemmas -/

theorem startsWith_exists {l p : List Char} (h : startsWith l p = true) :
    ∃ r, l = p ++ r := by
  induction p generalizing l with
  | nil => exact ⟨l, rfl⟩
  | cons c cs ih =>
      cases l with
      | nil => simp [startsWith] at h
      | cons a as =>
          simp only [startsWith, Bool.and_eq_true, decide_eq_true_eq] at h
          obtain ⟨r, hr⟩ := ih h.2
          exact ⟨r, by simp [h.1, hr]⟩

/-! ### C1: fence safety of the normalizer -/

/-- C1.  While the fence state is open, and on every fence-marker line, the
normalizer passes the line through byte-identically with no bullet-glyph
replacement, no dash-spacing fix and no blank-line insertion, and the fence
state is toggled by pure parity of fence-marker lines; in particular, when
no further fence marker occurs, every remaining line is passed through
unchanged to the end of the input (unterminated fences are tolerated). -/
theorem c1_fence_safety :
    (∀ (raw : List Char) (rest : List (List Char)) (insideFence : Bool)
        (prevRaw : List Char) (acc : List (List Char)),
        insideFence = true ∨ matchFence raw = true →
        normLoop (raw :: rest) insideFence prevRaw acc =
          normLoop rest (xor insideFence (matchFence raw)) raw (acc ++ [raw])) ∧
    (∀ (ls : List (List Char)) (prevRaw : List Char) (acc : List (List Char)),
        (∀ l ∈ ls, matchFence l = false) →
        normLoop ls true prevRaw acc = acc ++ ls) := by
  constructor
  · intro raw rest insideFence prevRaw acc h
    cases hM : matchFence raw with
    | true => simp [normLoop, hM]
    | false =>
        rcases h with h | h
        · subst h; simp [normLoop, hM]
        · rw [hM] at h; exact absurd h (by simp)
  · intro ls
    induction ls with
    | nil => intro prevRaw acc _; simp [normLoop]
    | cons l ls ih =>
        intro prevRaw acc h
        have hl : matchFence l = false := h l (by simp)
        have hrest : ∀ x ∈ ls, matchFence x = false := fun x hx => h x (by simp [hx])
        simp [normLoop, hl, ih l (acc ++ [l]) hrest]

/-- Closed instance of `c1_fence_safety`. -/
theorem c1_fence_safety_witness :
    normLoop [['x']] true [] [] = [] ++ [['x']] :=
  c1_fence_safety.2 [['x']] [] [] (by decide)

/-! ### C4: heading-to-list blank insertion -/

/-- C4.  Outside a fence, when the previous raw line matches the heading
pattern, the current normalized line matches a list-item start (bulleted,
or ordered with any Unicode decimal digits) and the last emitted line is
not blank, exactly one blank line is emitted before the current line; the
spec's example input normalizes as stated, and an ordered-list line
numbered with an Arabic-Indic digit (U+0663) also receives the blank
line. -/
theorem c4_heading_list_blank :
    (∀ (raw : List Char) (rest : List (List Char)) (prevRaw : List Char)
        (acc : List (List Char)),
        matchFence raw = false →
        prevRaw ≠ [] →
        matchHeading prevRaw = true →
        matchListStart (dashFix (glyphFix raw)) = true →
        acc ≠ [] →
        acc.getLast? ≠ some [] →
        normLoop (raw :: rest) false prevRaw acc =
          normLoop rest false raw (acc ++ [[], dashFix (glyphFix raw)])) ∧
    normalize_markdown_bullets "# Title\n- a\n- b".toList =
      "# Title\n\n- a\n- b".toList ∧
    normalize_markdown_bullets "# T\n\u0663. a".toList =
      "# T\n\n\u0663. a".toList := by
  refine ⟨?_, by decide, by decide⟩
  intro raw rest prevRaw acc hF hprev hH hL hacc hlast
  simp [normLoop, hF, hH, hL, hprev, hacc, hlast]

/-- Closed instance of `c4_heading_list_blank`. -/
theorem c4_heading_list_blank_witness :
    normLoop ["- a".toList] false "# T".toList ["# T".toList] =
      normLoop [] false "- a".toList
        (["# T".toList] ++ [[], dashFix (glyphFix "- a".toList)]) :=
  c4_heading_list_blank.1 "- a".toList [] "# T".toList ["# T".toList]
    (by decide) (by decide) (by decide) (by decide) (by decide) (by decide)

/-! ### C6: fence handling on the editable-document path -/

/-- C6 counterexample.  The line `code` lies between an opening and a
closing fence marker, yet it is reproduced in the editable document as a
paragraph: interior code-block content is not dropped by `convert_to_docx`,
contradicting the claim that such lines are not reproduced. -/
theorem c6_docx_fence_counterexample :
    Block.para [Run.plain "code".toList] ∈
      convert_to_docx_blocks "T".toList "```\ncode\n```".toList := by
  decide

/-- C6 amended.  A line whose stripped form starts with a triple backtick is
skipped (contributes nothing to the editable document), independent of fence
pairing; lines lying between two fence markers are not dropped but are
processed like ordinary lines, as the concrete fenced input shows. -/
theorem c6_docx_fence_amended :
    (∀ (rawLine : List Char) (rest : List (List Char)),
        startsWith (pyStrip rawLine) ['`', '`', '`'] = true →
        buildDocx (rawLine :: rest) = buildDocx rest) ∧
    buildDocx (splitNL "```\ncode\n```".toList) =
      [Block.para [Run.plain "code".toList]] := by
  constructor
  · intro rawLine rest h
    obtain ⟨r, hr⟩ := startsWith_exists h
    have hnone : docxLineModel rawLine = none := by
      simp [docxLineModel, docxClassify, startsWith, hr]
    simp [buildDocx, List.filterMap_cons, hnone]
  · decide

/-- Closed instance of `c6_docx_fence_amended`. -/
theorem c6_docx_fence_amended_witness :
    buildDocx ["```python".toList] = buildDocx [] :=
  c6_docx_fence_amended.1 "```python".toList [] (by decide)

/-! ### C8: docx heading recognition -/

/-- C8.  On the editable-document path a stripped line made of one to four
hash marks followed by a space is emitted as a heading whose level is the
number of hash marks, while a stripped line starting with five (hence also
six) hash marks is not recognized as a heading and falls through to the
paragraph branch. -/
theorem c8_docx_heading_levels :
    (∀ (rawLine : List Char) (k : Nat) (rest : List Char),
        pyStrip rawLine = List.replicate k '#' ++ ' ' :: rest →
        1 ≤ k → k ≤ 4 →
        docxLineModel rawLine = some (Block.heading rest k)) ∧
    (∀ rawLine : List Char,
        startsWith (pyStrip rawLine) (List.replicate 5 '#') = true →
        docxLineModel rawLine = some (Block.para (boldRuns (pyStrip rawLine)))) := by
  constructor
  · intro rawLine k rest h h1 h4
    interval_cases k <;>
      simp [docxLineModel, docxClassify, startsWith, List.replicate, h]
  · intro rawLine h
    obtain ⟨r, hr⟩ := startsWith_exists h
    simp [docxLineModel, docxClassify, startsWith, List.replicate, hr]

/-- Closed instance of `c8_docx_heading_levels`. -/
theorem c8_docx_heading_levels_witness :
    docxLineModel "## Hi".toList = some (Block.heading "Hi".toList 2) :=
  c8_docx_heading_levels.1 "## Hi".toList 2 "Hi".toList (by decide)
    (by decide) (by decide)

/-! ### C7: bold-run parity on the editable-document path -/

theorem runsOfParts_getElem (ps : List (List Char)) :
    ∀ j i, (runsOfParts j ps)[i]? =
      (ps[i]?).map (fun p => if (j + i) % 2 = 0 then Run.plain p else Run.bold p) := by
  induction ps with
  | nil => intro j i; simp [runsOfParts]
  | cons q qs ih =>
      intro j i
      cases i with
      | zero => simp [runsOfParts]
      | succ i =>
          have hj : j + 1 + i = j + (i + 1) := by omega
          simp [runsOfParts, ih (j + 1) i, hj]

/-- C7.  A stripped non-blank line that is neither a recognized heading nor
a backtick fence marker is emitted as a paragraph split on the literal
double asterisk into alternating runs, even-indexed segments plain and
odd-indexed segments bold; the two parity examples compute as the spec
states, the second showing the unterminated bold run. -/
theorem c7_docx_bold_parity :
    (∀ rawLine : List Char,
        pyStrip rawLine ≠ [] →
        startsWith (pyStrip rawLine) ['#', ' '] = false →
        startsWith (pyStrip rawLine) ['#', '#', ' '] = false →
        startsWith (pyStrip rawLine) ['#', '#', '#', ' '] = false →
        startsWith (pyStrip rawLine) ['#', '#', '#', '#', ' '] = false →
        startsWith (pyStrip rawLine) ['`', '`', '`'] = false →
        docxLineModel rawLine = some (Block.para (boldRuns (pyStrip rawLine)))) ∧
    (∀ (text : List Char) (i : Nat) (p : List Char),
        hasStarStar text = true →
        (splitStarStar text)[i]? = some p →
        (boldRuns text)[i]? =
          some (if i % 2 = 0 then Run.plain p else Run.bold p)) ∧
    boldRuns "a **b** c".toList =
      [Run.plain "a ".toList, Run.bold "b".toList, Run.plain " c".toList] ∧
    boldRuns "a **b c".toList =
      [Run.plain "a ".toList, Run.bold "b c".toList] := by
  refine ⟨?_, ?_, by decide, by decide⟩
  · intro rawLine hne h1 h2 h3 h4 h5
    have hie : (pyStrip rawLine).isEmpty = false := by
      simp [List.isEmpty_iff, hne]
    simp [docxLineModel, docxClassify, hie, h1, h2, h3, h4, h5]
  · intro text i p hss hget
    simp [boldRuns, hss, runsOfParts_getElem, hget]

/-- Closed instance of `c7_docx_bold_parity`. -/
theorem c7_docx_bold_parity_witness :
    docxLineModel "hello".toList =
      some (Block.para (boldRuns (pyStrip "hello".toList))) :=
  c7_docx_bold_parity.1 "hello".toList (by decide) (by decide) (by decide)
    (by decide) (by decide) (by decide)

/-! ### C9: download endpoint contract -/

/-- C9.  The download operation returns the 404 not-found outcome both when
the identifier is absent from the registry and when the identifier is
present but its backing file no longer exists on disk; otherwise it returns
the stored artifact under the filename recorded at generation time, the
title with spaces replaced by underscores plus the format-specific
extension. -/
theorem c9_download_contract :
    (∀ (tempFiles : List (List Char × FileEntry)) (onDisk : List Char → Bool)
        (fileId : List Char),
        findEntry tempFiles fileId = none →
        download_file tempFiles onDisk fileId = DownloadResponse.notFound404) ∧
    (∀ (tempFiles : List (List Char × FileEntry)) (onDisk : List Char → Bool)
        (fileId : List Char) (info : FileEntry),
        findEntry tempFiles fileId = some info →
        onDisk info.path = false →
        download_file tempFiles onDisk fileId = DownloadResponse.notFound404) ∧
    (∀ (tempFiles : List (List Char × FileEntry)) (onDisk : List Char → Bool)
        (fileId filePath title ext : List Char),
        onDisk filePath = true →
        download_file (storeEntry tempFiles fileId filePath title ext) onDisk fileId =
          DownloadResponse.fileResponse filePath (underscoreTitle title ++ ext)) := by
  refine ⟨?_, ?_, ?_⟩
  · intro tempFiles onDisk fileId h
    simp [download_file, h]
  · intro tempFiles onDisk fileId info h hd
    simp [download_file, h, hd]
  · intro tempFiles onDisk fileId filePath title ext h
    simp [download_file, storeEntry, findEntry, h]

/-- Closed instance of `c9_download_contract`. -/
theorem c9_download_contract_witness :
    download_file [] (fun _ => false) "x".toList = DownloadResponse.notFound404 :=
  c9_download_contract.1 [] (fun _ => false) "x".toList (by decide)


/-! ### Whitespace scanning lemmas -/

theorem tw_spaces {l : List Char} : ∀ a ∈ l.takeWhile pySpace, pySpace a = true :=
  fun _ ha => List.mem_takeWhile_imp ha

theorem pySpace_head_dropWhile {l : List Char} {c : Char} {cs : List Char}
    (h : l.dropWhile pySpace = c :: cs) : pySpace c = false := by
  have hh := List.head?_dropWhile_not pySpace l
  rw [h] at hh
  simpa using hh

theorem dropWhile_tw_cons {l r : List Char} {c : Char} (hc : pySpace c = false) :
    (l.takeWhile pySpace ++ c :: r).dropWhile pySpace = c :: r := by
  rw [List.dropWhile_append_of_pos tw_spaces,
    List.dropWhile_cons_of_neg (by simp [hc])]

theorem pySpace_space : pySpace ' ' = true := by decide

theorem pySpace_dash : pySpace '-' = false := by decide

theorem glyph_dash : isBulletGlyph '-' = false := by decide

/-! ### The per-line transformation -/

theorem T_eq (l : List Char) :
    dashFix (glyphFix l) = l ∨
    ∃ c cs r, l.dropWhile pySpace = c :: cs ∧ (isBulletGlyph c = true ∨ c = '-') ∧
      (∀ a ∈ r, a ∈ l) ∧
      dashFix (glyphFix l) = l.takeWhile pySpace ++ '-' :: ' ' :: r := by
  cases hdw : l.dropWhile pySpace with
  | nil =>
      left
      have hg : glyphFix l = l := by simp [glyphFix, hdw]
      rw [hg]; simp [dashFix, hdw]
  | cons c cs =>
      have hsub : ∀ a ∈ cs, a ∈ l := by
        intro a ha
        exact List.dropWhile_subset pySpace (by rw [hdw]; exact List.mem_cons_of_mem _ ha)
      by_cases hbg : isBulletGlyph c = true
      · right
        have hg : glyphFix l =
            l.takeWhile pySpace ++ '-' :: ' ' :: cs.dropWhile pySpace := by
          simp [glyphFix, hdw, hbg]
        refine ⟨c, cs, cs.dropWhile pySpace, rfl, Or.inl hbg,
          fun a ha => hsub a (List.dropWhile_subset pySpace ha), ?_⟩
        rw [hg]
        have hdw2 : (l.takeWhile pySpace ++ '-' :: ' ' :: cs.dropWhile pySpace).dropWhile
            pySpace = '-' :: ' ' :: cs.dropWhile pySpace := dropWhile_tw_cons (by decide)
        simp [dashFix, hdw2, pySpace_space]
      · by_cases hdash : c = '-'
        · subst hdash
          have hg : glyphFix l = l := by simp [glyphFix, hdw, hbg]
          rw [hg]
          cases cs with
          | nil =>
              right
              exact ⟨'-', [], [], rfl, Or.inr rfl, by simp, by simp [dashFix, hdw]⟩
          | cons c2 cs2 =>
              by_cases hsp : pySpace c2 = true
              · left; simp [dashFix, hdw, hsp]
              · right
                refine ⟨'-', c2 :: cs2, c2 :: cs2, rfl, Or.inr rfl, hsub, ?_⟩
                simp [dashFix, hdw, hsp]
        · left
          have hg : glyphFix l = l := by simp [glyphFix, hdw, hbg]
          rw [hg]; simp [dashFix, hdw, hdash]

theorem glyph_facts {c : Char} (h : isBulletGlyph c = true) :
    c ≠ '`' ∧ c ≠ '~' ∧ c ≠ '#' ∧ pySpace c = false ∧ isLineBoundary c = false := by
  simp only [isBulletGlyph, Bool.decide_or, Bool.or_eq_true, decide_eq_true_eq] at h
  rcases h with h | h | h | h | h | h <;> subst h <;>
    exact ⟨by decide, by decide, by decide, by decide, by decide⟩

theorem T_matchFence (l : List Char) :
    matchFence (dashFix (glyphFix l)) = matchFence l := by
  rcases T_eq l with h | ⟨c, cs, r, hdw, hc, _, h⟩
  · rw [h]
  · rw [h]
    have h1 : (l.takeWhile pySpace ++ '-' :: ' ' :: r).dropWhile pySpace =
        '-' :: ' ' :: r := dropWhile_tw_cons (by decide)
    have hgne : c ≠ '`' ∧ c ≠ '~' := by
      rcases hc with hc | hc
      · exact ⟨(glyph_facts hc).1, (glyph_facts hc).2.1⟩
      · subst hc; exact ⟨by decide, by decide⟩
    simp [matchFence, h1, hdw, startsWith, hgne.1, hgne.2]

theorem T_matchHeading (l : List Char) :
    matchHeading (dashFix (glyphFix l)) = matchHeading l := by
  rcases T_eq l with h | ⟨c, cs, r, hdw, hc, _, h⟩
  · rw [h]
  · rw [h]
    have h1 : (l.takeWhile pySpace ++ '-' :: ' ' :: r).dropWhile pySpace =
        '-' :: ' ' :: r := dropWhile_tw_cons (by decide)
    have hne : c ≠ '#' := by
      rcases hc with hc | hc
      · exact (glyph_facts hc).2.2.1
      · subst hc; decide
    simp [matchHeading, h1, hdw, List.takeWhile_cons_of_neg, hne]

theorem T_T (l : List Char) :
    dashFix (glyphFix (dashFix (glyphFix l))) = dashFix (glyphFix l) := by
  rcases T_eq l with h | ⟨c, cs, r, hdw, hc, _, h⟩
  · rw [h]; exact h
  · rw [h]
    have hdw2 : (l.takeWhile pySpace ++ '-' :: ' ' :: r).dropWhile pySpace =
        '-' :: ' ' :: r := dropWhile_tw_cons (by decide)
    have hg : glyphFix (l.takeWhile pySpace ++ '-' :: ' ' :: r) =
        l.takeWhile pySpace ++ '-' :: ' ' :: r := by
      simp [glyphFix, hdw2, glyph_dash]
    rw [hg]
    simp [dashFix, hdw2, pySpace_space]

theorem T_empty_iff {l : List Char} : dashFix (glyphFix l) = [] ↔ l = [] := by
  constructor
  · intro h
    rcases T_eq l with h2 | ⟨c, cs, r, hdw, hc, _, h2⟩
    · rw [h2] at h; exact h
    · rw [h2] at h; simp at h
  · intro h; subst h; rfl

theorem T_bfree {l : List Char} (h : ∀ c ∈ l, isLineBoundary c = false) :
    ∀ c ∈ dashFix (glyphFix l), isLineBoundary c = false := by
  intro c hc
  rcases T_eq l with h2 | ⟨c0, cs, r, hdw, hc0, hr, h2⟩
  · rw [h2] at hc; exact h c hc
  · rw [h2] at hc
    rcases List.mem_append.1 hc with hm | hm
    · exact h c (List.takeWhile_subset _ hm)
    · rcases List.mem_cons.1 hm with hm | hm
      · subst hm; decide
      · rcases List.mem_cons.1 hm with hm | hm
        · subst hm; decide
        · exact h c (hr c hm)




theorem isEmpty_eq_getLast?_none (acc : List (List Char)) :
    (!acc.isEmpty) = !(decide (acc.getLast? = none)) := by
  cases acc with
  | nil => simp
  | cons a as => simp

theorem normLoop_eq_emits (ls : List (List Char)) :
    ∀ (fence : Bool) (prev : List Char) (acc : List (List Char)),
      normLoop ls fence prev acc = acc ++ normEmits ls fence prev acc.getLast? := by
  induction ls with
  | nil => intro fence prev acc; simp [normLoop, normEmits]
  | cons raw rest ih =>
      intro fence prev acc
      cases hf : matchFence raw with
      | true =>
          simp only [normLoop, normEmits, hf, ite_true, Bool.true_eq_false,
            ite_false, if_pos]
          rw [ih, List.getLast?_concat]
          simp
      | false =>
          cases hI : fence with
          | true =>
              simp [normLoop, normEmits, hf, hI]
              rw [ih, List.getLast?_concat]
              simp
          | false =>
              simp only [normLoop, normEmits, hf, hI, Bool.false_eq_true,
                ite_false]
              rw [isEmpty_eq_getLast?_none acc]
              by_cases hcond :
                  (!prev.isEmpty && matchHeading prev &&
                    matchListStart (dashFix (glyphFix raw)) &&
                    !(decide (acc.getLast? = none)) &&
                    !(decide (acc.getLast? = some ([] : List Char)))) = true
              · simp only [hcond, ite_true]
                rw [ih, List.getLast?_concat]
                simp
              · simp only [Bool.not_eq_true] at hcond
                simp only [hcond, Bool.false_eq_true, ite_false]
                rw [ih, List.getLast?_concat]
                simp

theorem emits_insertBlanks (ls : List (List Char)) :
    ∀ (fence : Bool) (prev : List Char) (le : Option (List Char)),
      InsertBlanks (emitLines ls fence) (normEmits ls fence prev le) := by
  induction ls with
  | nil => intro fence prev le; simp only [emitLines, normEmits]; exact InsertBlanks.nil
  | cons raw rest ih =>
      intro fence prev le
      cases hf : matchFence raw with
      | true =>
          simp only [emitLines, normEmits, hf, ite_true]
          exact InsertBlanks.keep _ _ _ (ih _ _ _)
      | false =>
          cases hI : fence with
          | true =>
              simp only [emitLines, normEmits, hf, hI, Bool.false_eq_true,
                ite_false, ite_true]
              exact InsertBlanks.keep _ _ _ (ih _ _ _)
          | false =>
              simp only [emitLines, normEmits, hf, hI, Bool.false_eq_true,
                ite_false]
              by_cases hcond :
                  (!prev.isEmpty && matchHeading prev &&
                    matchListStart (dashFix (glyphFix raw)) &&
                    !(decide (le = none)) &&
                    !(decide (le = some ([] : List Char)))) = true
              · simp only [hcond, ite_true]
                exact InsertBlanks.blank _ _ (InsertBlanks.keep _ _ _ (ih _ _ _))
              · simp only [Bool.not_eq_true] at hcond
                simp only [hcond, Bool.false_eq_true, ite_false]
                exact InsertBlanks.keep _ _ _ (ih _ _ _)

theorem insertBlanks_length {xs ys : List (List Char)} (h : InsertBlanks xs ys) :
    xs.length ≤ ys.length := by
  induction h with
  | nil => simp
  | keep x xs ys _ ih => simpa using ih
  | blank xs ys _ ih => simp; omega

theorem emitLines_length (ls : List (List Char)) :
    ∀ fence, (emitLines ls fence).length = ls.length := by
  induction ls with
  | nil => intro fence; simp [emitLines]
  | cons raw rest ih =>
      intro fence
      cases hf : matchFence raw with
      | true => simp [emitLines, hf, ih]
      | false =>
          cases hI : fence with
          | true => simp [emitLines, hf, hI, ih]
          | false => simp [emitLines, hf, hI, ih]



theorem nl_boundary : isLineBoundary '\n' = true := by decide

theorem splitlinesAux_bfree_eq :
    ∀ (l cur : List Char), (∀ c ∈ l, isLineBoundary c = false) →
      splitlinesAux l cur = [cur.reverse ++ l] := by
  intro l cur
  induction l, cur using splitlinesAux.induct with
  | case1 cur => intro _; simp [splitlinesAux]
  | case2 c cur hb =>
      intro h
      exact absurd (h c (by simp)) (by simp [hb])
  | case3 c cur hb =>
      intro _
      simp [splitlinesAux, hb]
  | case4 c c2 cs cur hcr ih =>
      intro h
      have := h c (by simp)
      rw [hcr.1] at this
      exact absurd this (by decide)
  | case5 c c2 cs cur hcr hb ih =>
      intro h
      exact absurd (h c (by simp)) (by simp [hb])
  | case6 c c2 cs cur hcr hb ih =>
      intro h
      have hrec := ih (fun a ha => h a (List.mem_cons_of_mem _ ha))
      simp [splitlinesAux, hcr, hb, hrec]

theorem splitlines_bfree {s : List Char} (hne : s ≠ [])
    (h : ∀ c ∈ s, isLineBoundary c = false) : splitlines s = [s] := by
  have := splitlinesAux_bfree_eq s [] h
  simp only [List.reverse_nil, List.nil_append] at this
  simp [splitlines, List.isEmpty_iff, hne, this]

theorem splitlinesAux_break :
    ∀ (l cur rest : List Char), (∀ c ∈ l, isLineBoundary c = false) → rest ≠ [] →
      splitlinesAux (l ++ '\n' :: rest) cur =
        (cur.reverse ++ l) :: splitlinesAux rest [] := by
  intro l
  induction l with
  | nil =>
      intro cur rest _ hrest
      cases rest with
      | nil => exact absurd rfl hrest
      | cons r rs => simp [splitlinesAux, nl_boundary]
  | cons c l' ih =>
      intro cur rest h hrest
      have hc : isLineBoundary c = false := h c (by simp)
      have hcr : ¬(c = '\r') := by
        intro e; subst e; exact absurd hc (by decide)
      cases hsh : l' ++ '\n' :: rest with
      | nil => simp at hsh
      | cons d ds =>
          rw [List.cons_append, hsh]
          have hrec := ih (c :: cur) rest (fun a ha => h a (by simp [ha])) hrest
          rw [hsh] at hrec
          simp only [splitlinesAux, hcr, hc, false_and, if_false,
            Bool.false_eq_true, ite_false, hrec]
          simp

theorem intercalate_nl_cons2 (x y : List Char) (zs : List (List Char)) :
    List.intercalate ['\n'] (x :: y :: zs) =
      x ++ '\n' :: List.intercalate ['\n'] (y :: zs) := by
  simp [List.intercalate]

theorem intercalate_nl_ne_nil :
    ∀ (ls : List (List Char)), ls ≠ [] → ls.getLast? ≠ some [] →
      List.intercalate ['\n'] ls ≠ [] := by
  intro ls
  induction ls with
  | nil => intro h _; exact absurd rfl h
  | cons x xs ih =>
      intro _ hlast
      cases xs with
      | nil =>
          have hx : x ≠ [] := by
            intro e; subst e; exact hlast (by simp)
          simpa [List.intercalate] using hx
      | cons y ys =>
          rw [intercalate_nl_cons2]
          intro he
          simp at he

theorem splitlines_intercalate :
    ∀ (ls : List (List Char)), ls ≠ [] →
      (∀ l ∈ ls, ∀ c ∈ l, isLineBoundary c = false) →
      ls.getLast? ≠ some [] →
      splitlines (List.intercalate ['\n'] ls) = ls := by
  intro ls
  induction ls with
  | nil => intro h _ _; exact absurd rfl h
  | cons x xs ih =>
      intro _ hb hlast
      cases xs with
      | nil =>
          have hx : x ≠ [] := by intro e; subst e; exact hlast (by simp)
          have hone : List.intercalate ['\n'] [x] = x := by simp [List.intercalate]
          rw [hone, splitlines_bfree hx (hb x (by simp))]
      | cons y ys =>
          have hlast2 : (y :: ys).getLast? ≠ some [] := by
            intro he; exact hlast (by rw [List.getLast?_cons_cons]; exact he)
          have hT : List.intercalate ['\n'] (y :: ys) ≠ [] :=
            intercalate_nl_ne_nil _ (by simp) hlast2
          have hrec := ih (by simp) (fun l hl => hb l (by simp [hl])) hlast2
          have hx_b : ∀ c ∈ x, isLineBoundary c = false := hb x (by simp)
          rw [intercalate_nl_cons2]
          have hbk := splitlinesAux_break x [] (List.intercalate ['\n'] (y :: ys))
            hx_b hT
          simp only [List.reverse_nil, List.nil_append] at hbk
          have hne2 : x ++ '\n' :: List.intercalate ['\n'] (y :: ys) ≠ [] := by
            simp
          have h2 : splitlinesAux (List.intercalate ['\n'] (y :: ys)) [] =
              splitlines (List.intercalate ['\n'] (y :: ys)) := by
            simp [splitlines, List.isEmpty_iff, hT]
          rw [show splitlines (x ++ '\n' :: List.intercalate ['\n'] (y :: ys)) =
              splitlinesAux (x ++ '\n' :: List.intercalate ['\n'] (y :: ys)) [] by
            simp [splitlines, List.isEmpty_iff, hne2]]
          rw [hbk, h2, hrec]



theorem matchFence_nil : matchFence [] = false := by decide

theorem matchListStart_nil : matchListStart [] = false := by decide

theorem T_nil : dashFix (glyphFix []) = [] := rfl

theorem emits_idem :
    ∀ (ls : List (List Char)) (fence : Bool) (prev prev2 : List Char)
      (le : Option (List Char)),
      (prev = [] ↔ prev2 = []) →
      matchHeading prev = matchHeading prev2 →
      normEmits (normEmits ls fence prev le) fence prev2 le =
        normEmits ls fence prev le := by
  intro ls
  induction ls with
  | nil => intro fence prev prev2 le _ _; simp [normEmits]
  | cons raw rest ih =>
      intro fence prev prev2 le hpe hph
      have hiseq : prev.isEmpty = prev2.isEmpty := by
        by_cases h1 : prev = []
        · rw [h1, hpe.mp h1]
        · have h2 : prev2 ≠ [] := fun e => h1 (hpe.mpr e)
          obtain ⟨a, as, e1⟩ := List.exists_cons_of_ne_nil h1
          obtain ⟨b, bs, e2⟩ := List.exists_cons_of_ne_nil h2
          rw [e1, e2]; rfl
      cases hf : matchFence raw with
      | true =>
          simp only [normEmits, hf, ite_true]
          rw [ih (!fence) raw raw (some raw) Iff.rfl rfl]
      | false =>
          cases hI : fence with
          | true =>
              simp only [normEmits, hf, hI, Bool.false_eq_true, ite_false,
                ite_true]
              rw [ih true raw raw (some raw) Iff.rfl rfl]
          | false =>
              simp only [normEmits, hf, hI, Bool.false_eq_true, ite_false]
              have hfT : matchFence (dashFix (glyphFix raw)) = false := by
                rw [T_matchFence]; exact hf
              have hTT := T_T raw
              have hpe2 : raw = [] ↔ dashFix (glyphFix raw) = [] :=
                Iff.symm T_empty_iff
              have hph2 : matchHeading raw = matchHeading (dashFix (glyphFix raw)) :=
                (T_matchHeading raw).symm
              by_cases hcond :
                  (!prev.isEmpty && matchHeading prev &&
                    matchListStart (dashFix (glyphFix raw)) &&
                    !(decide (le = none)) &&
                    !(decide (le = some ([] : List Char)))) = true
              · simp only [hcond, ite_true]
                simp only [List.singleton_append, normEmits, matchFence_nil,
                  Bool.false_eq_true, ite_false, T_nil, matchListStart_nil,
                  Bool.and_false, Bool.false_and, List.nil_append, hfT, hTT,
                  List.isEmpty_nil, Bool.not_true, ite_true]
                rw [ih false raw (dashFix (glyphFix raw))
                  (some (dashFix (glyphFix raw))) hpe2 hph2]
              · simp only [Bool.not_eq_true] at hcond
                simp only [hcond, Bool.false_eq_true, ite_false,
                  List.nil_append]
                simp only [normEmits, hfT, Bool.false_eq_true, ite_false, hTT]
                rw [← hiseq, ← hph, hcond]
                simp only [Bool.false_eq_true, ite_false, List.nil_append]
                rw [ih false raw (dashFix (glyphFix raw))
                  (some (dashFix (glyphFix raw))) hpe2 hph2]



theorem splitlinesAux_ne_nil : ∀ (l cur : List Char), splitlinesAux l cur ≠ [] := by
  intro l cur
  induction l, cur using splitlinesAux.induct with
  | case1 cur => simp [splitlinesAux]
  | case2 c cur hb => simp [splitlinesAux, hb]
  | case3 c cur hb => simp [splitlinesAux, hb]
  | case4 c c2 cs cur hcr ih => simp [splitlinesAux, hcr]
  | case5 c c2 cs cur hcr hb ih => simp [splitlinesAux, hcr, hb]
  | case6 c c2 cs cur hcr hb ih => simp [splitlinesAux, hcr, hb]; exact ih

theorem splitlines_mem_bfree :
    ∀ (s : List Char), ∀ l ∈ splitlines s, ∀ c ∈ l, isLineBoundary c = false := by
  have haux : ∀ (l cur : List Char), (∀ c ∈ cur, isLineBoundary c = false) →
      ∀ m ∈ splitlinesAux l cur, ∀ c ∈ m, isLineBoundary c = false := by
    intro l cur
    induction l, cur using splitlinesAux.induct with
    | case1 cur =>
        intro hcur m hm c hc
        simp [splitlinesAux] at hm
        subst hm
        exact hcur c (by simpa using hc)
    | case2 c cur hb =>
        intro hcur m hm c hc
        simp [splitlinesAux, hb] at hm
        subst hm
        exact hcur c (by simpa using hc)
    | case3 c cur hb =>
        intro hcur m hm d hd
        simp [splitlinesAux, hb] at hm
        subst hm
        simp at hd
        rcases hd with hd | hd
        · exact hcur d hd
        · subst hd; simpa using hb
    | case4 c c2 cs cur hcr ih =>
        intro hcur m hm d hd
        simp only [splitlinesAux, hcr, if_pos, and_self, ite_true] at hm
        rcases List.mem_cons.1 hm with hm | hm
        · subst hm; exact hcur d (by simpa using hd)
        · by_cases hcs : cs.isEmpty
          · simp [hcs] at hm
          · simp only [hcs, Bool.false_eq_true, ite_false] at hm
            exact ih (by simp) m hm d hd
    | case5 c c2 cs cur hcr hb ih =>
        intro hcur m hm d hd
        simp only [splitlinesAux, hcr, hb, ite_true, ite_false, if_neg,
          not_false_iff] at hm
        rcases List.mem_cons.1 hm with hm | hm
        · subst hm; exact hcur d (by simpa using hd)
        · exact ih (by simp) m hm d hd
    | case6 c c2 cs cur hcr hb ih =>
        intro hcur m hm d hd
        simp only [splitlinesAux, hcr, hb, ite_false, if_neg,
          not_false_iff] at hm
        refine ih ?_ m hm d hd
        intro e he
        rcases List.mem_cons.1 he with he | he
        · subst he; simpa using hb
        · exact hcur e he
  intro s l hl c hc
  by_cases hs : s = []
  · subst hs; simp [splitlines] at hl
  · have : splitlines s = splitlinesAux s [] := by
      simp [splitlines, List.isEmpty_iff, hs]
    rw [this] at hl
    exact haux s [] (by simp) l hl c hc

theorem emits_bfree :
    ∀ (ls : List (List Char)) (fence : Bool) (prev : List Char)
      (le : Option (List Char)),
      (∀ l ∈ ls, ∀ c ∈ l, isLineBoundary c = false) →
      ∀ m ∈ normEmits ls fence prev le, ∀ c ∈ m, isLineBoundary c = false := by
  intro ls
  induction ls with
  | nil => intro fence prev le _ m hm; simp [normEmits] at hm
  | cons raw rest ih =>
      intro fence prev le h m hm
      have hraw := h raw (by simp)
      have hrest : ∀ l ∈ rest, ∀ c ∈ l, isLineBoundary c = false :=
        fun l hl => h l (by simp [hl])
      cases hf : matchFence raw with
      | true =>
          simp only [normEmits, hf, ite_true] at hm
          rcases List.mem_cons.1 hm with hm | hm
          · subst hm; exact hraw
          · exact ih _ _ _ hrest m hm
      | false =>
          cases hI : fence with
          | true =>
              simp only [normEmits, hf, hI, Bool.false_eq_true, ite_false,
                ite_true] at hm
              rcases List.mem_cons.1 hm with hm | hm
              · subst hm; exact hraw
              · exact ih _ _ _ hrest m hm
          | false =>
              simp only [normEmits, hf, hI, Bool.false_eq_true, ite_false] at hm
              rcases List.mem_append.1 hm with hm | hm
              · by_cases hcond :
                    (!prev.isEmpty && matchHeading prev &&
                      matchListStart (dashFix (glyphFix raw)) &&
                      !(decide (le = none)) &&
                      !(decide (le = some ([] : List Char)))) = true
                · simp [hcond] at hm
                  subst hm; intro c hc; simp at hc
                · simp only [Bool.not_eq_true] at hcond
                  simp [hcond] at hm
              · rcases List.mem_cons.1 hm with hm | hm
                · subst hm; exact T_bfree hraw
                · exact ih _ _ _ hrest m hm

theorem normEmits_cons (raw : List Char) (rest : List (List Char))
    (fence : Bool) (prev : List Char) (le : Option (List Char)) :
    normEmits (raw :: rest) fence prev le =
      (if matchFence raw then raw :: normEmits rest (!fence) raw (some raw)
       else if fence then raw :: normEmits rest fence raw (some raw)
       else
         (if !prev.isEmpty && matchHeading prev &&
             matchListStart (dashFix (glyphFix raw)) &&
             !(decide (le = none)) && !(decide (le = some ([] : List Char))) then
            [([] : List Char)] else []) ++
          dashFix (glyphFix raw) ::
            normEmits rest fence raw (some (dashFix (glyphFix raw)))) := rfl

theorem getLast?_append_ne {l l2 : List (List Char)} (h : l2 ≠ []) :
    (l ++ l2).getLast? = l2.getLast? := by
  rw [List.getLast?_append]
  cases hy : l2.getLast? with
  | none => exact absurd (List.getLast?_eq_none_iff.mp hy) h
  | some y => simp

theorem emits_ne_last :
    ∀ (ls : List (List Char)) (fence : Bool) (prev : List Char)
      (le : Option (List Char)),
      ls ≠ [] → ls.getLast? ≠ some [] →
      normEmits ls fence prev le ≠ [] ∧
        (normEmits ls fence prev le).getLast? ≠ some [] := by
  intro ls
  induction ls with
  | nil => intro fence prev le h _; exact absurd rfl h
  | cons raw rest ih =>
      intro fence prev le _ hlast
      cases rest with
      | nil =>
          have hraw : raw ≠ [] := by
            intro e; subst e; exact hlast (by simp)
          have hTraw : dashFix (glyphFix raw) ≠ [] := by
            intro e; exact hraw (T_empty_iff.mp e)
          cases hf : matchFence raw with
          | true => simp [normEmits, hf, hraw]
          | false =>
              cases hI : fence with
              | true => simp [normEmits, hf, hI, hraw]
              | false =>
                  rw [normEmits_cons]
                  simp only [hf, hI, Bool.false_eq_true, ite_false]
                  constructor
                  · simp
                  · rw [getLast?_append_ne (by simp)]
                    simp [normEmits, hTraw]
      | cons next rest2 =>
          have hlast2 : (next :: rest2).getLast? ≠ some [] := by
            intro e; exact hlast (by rw [List.getLast?_cons_cons]; exact e)
          cases hf : matchFence raw with
          | true =>
              have hr := ih (!fence) raw (some raw) (by simp) hlast2
              rw [normEmits_cons]
              simp only [hf, ite_true]
              constructor
              · simp
              · rw [← List.singleton_append, getLast?_append_ne hr.1]
                exact hr.2
          | false =>
              cases hI : fence with
              | true =>
                  have hr := ih true raw (some raw) (by simp) hlast2
                  rw [normEmits_cons]
                  simp only [hf, hI, Bool.false_eq_true, ite_false, ite_true]
                  constructor
                  · simp
                  · rw [← List.singleton_append, getLast?_append_ne hr.1]
                    exact hr.2
              | false =>
                  have hr := ih false raw (some (dashFix (glyphFix raw)))
                    (by simp) hlast2
                  rw [normEmits_cons]
                  simp only [hf, hI, Bool.false_eq_true, ite_false]
                  constructor
                  · simp
                  · rw [getLast?_append_ne (by simp), ← List.singleton_append,
                      getLast?_append_ne hr.1]
                    exact hr.2



theorem splitlinesAux_snoc_nl :
    ∀ (l cur : List Char), l ≠ [] →
      (∀ c, l.getLast? = some c → isLineBoundary c = false) →
      splitlinesAux (l ++ ['\n']) cur = splitlinesAux l cur := by
  intro l cur
  induction l, cur using splitlinesAux.induct with
  | case1 cur => intro h _; exact absurd rfl h
  | case2 c cur hb =>
      intro _ h
      exact absurd (h c (by simp)) (by simp [hb])
  | case3 c cur hb =>
      intro _ h
      have hcr : ¬(c = '\r') := by
        intro e; subst e; exact hb (by decide)
      simp [splitlinesAux, hcr, hb, nl_boundary]
  | case4 c c2 cs cur hcr ih =>
      intro _ h
      obtain ⟨e1, e2⟩ := hcr
      subst e1; subst e2
      cases cs with
      | nil => exact absurd (h '\n' (by simp)) (by decide)
      | cons d ds =>
          have hlast : ∀ e, (d :: ds).getLast? = some e → isLineBoundary e = false := by
            intro e he
            apply h
            simpa using he
          have hrec := ih (by simp) hlast
          simp only [List.cons_append]
          simp only [splitlinesAux, and_self, ite_true, List.append_eq_nil,
            List.isEmpty_eq_true]
          rw [show (d :: ds) ++ ['\n'] = d :: (ds ++ ['\n']) by simp] at hrec
          simp [hrec]
  | case5 c c2 cs cur hcr hb ih =>
      intro _ h
      have hlast : ∀ e, (c2 :: cs).getLast? = some e → isLineBoundary e = false := by
        intro e he
        apply h
        simpa using he
      have hrec := ih (by simp) hlast
      simp only [List.cons_append]
      simp only [splitlinesAux, hcr, hb, ite_true, ite_false, if_neg,
        not_false_iff]
      rw [show (c2 :: cs) ++ ['\n'] = c2 :: (cs ++ ['\n']) by simp] at hrec
      simp [hrec]
  | case6 c c2 cs cur hcr hb ih =>
      intro _ h
      have hlast : ∀ e, (c2 :: cs).getLast? = some e → isLineBoundary e = false := by
        intro e he
        apply h
        simpa using he
      have hrec := ih (by simp) hlast
      simp only [List.cons_append]
      simp only [splitlinesAux, hcr, hb, ite_false, if_neg, not_false_iff]
      rw [show (c2 :: cs) ++ ['\n'] = c2 :: (cs ++ ['\n']) by simp] at hrec
      simp [hrec, hcr, hb]

theorem splitlines_snoc_nl {s : List Char} (hne : s ≠ [])
    (h : ∀ c, s.getLast? = some c → isLineBoundary c = false) :
    splitlines (s ++ ['\n']) = splitlines s := by
  have h1 : s ++ ['\n'] ≠ [] := by simp
  simp [splitlines, List.isEmpty_iff, hne, h1,
    splitlinesAux_snoc_nl s [] hne h]



/-- C3 counterexample.  At the input made of the letter a followed by two
newlines the output has strictly fewer lines than the input (the join drops
the final empty line), so the claimed line-count monotonicity fails at the
string level. -/
theorem c3_count_counterexample :
    (splitlines (normalize_markdown_bullets ('a' :: '\n' :: '\n' :: []))).length <
      (splitlines ('a' :: '\n' :: '\n' :: [])).length := by decide

/-- C3 amended.  The line list the normalizer joins into its output is
obtained from the per-line-transformed input lines by inserting zero or
more blank lines: no line is removed, order is preserved, and the emitted
list is at least as long as the splitlines of the input.  The string-level
count can only shrink through the final join dropping a trailing empty
line. -/
theorem c3_lines_preserved :
    ∀ content : List Char,
      InsertBlanks (emitLines (splitlines content) false)
        (normLoop (splitlines content) false [] []) ∧
      (splitlines content).length ≤
        (normLoop (splitlines content) false [] []).length := by
  intro content
  have h1 := normLoop_eq_emits (splitlines content) false [] []
  simp only [List.nil_append] at h1
  constructor
  · rw [h1]
    exact emits_insertBlanks _ _ _ _
  · rw [h1]
    have h2 := insertBlanks_length
      (emits_insertBlanks (splitlines content) false [] (List.getLast? []))
    have h3 := emitLines_length (splitlines content) false
    omega

/-- C2 counterexample.  The normalizer is not idempotent: at the input
made of the letter a followed by two newlines, one application yields the
letter a plus one newline, and a second application yields the bare
letter a. -/
theorem c2_idempotence_counterexample :
    normalize_markdown_bullets
        (normalize_markdown_bullets ('a' :: '\n' :: '\n' :: [])) ≠
      normalize_markdown_bullets ('a' :: '\n' :: '\n' :: []) := by decide

/-- C2 amended.  The normalizer is idempotent on every input whose line
split does not end in an empty line; on the remaining inputs (those ending
in a blank line) a second application strips one trailing newline, as the
counterexample shows. -/
theorem c2_idempotence_amended :
    ∀ s : List Char, (splitlines s).getLast? ≠ some [] →
      normalize_markdown_bullets (normalize_markdown_bullets s) =
        normalize_markdown_bullets s := by
  intro s hlast
  by_cases hs : s = []
  · subst hs; rfl
  · have hsplit_aux : splitlines s = splitlinesAux s [] := by
      simp [splitlines, List.isEmpty_iff, hs]
    have hls_ne : splitlines s ≠ [] := by
      rw [hsplit_aux]; exact splitlinesAux_ne_nil s []
    have hout := normLoop_eq_emits (splitlines s) false [] []
    simp only [List.nil_append] at hout
    have hne2 := emits_ne_last (splitlines s) false [] none hls_ne hlast
    have hbfree := emits_bfree (splitlines s) false [] none (splitlines_mem_bfree s)
    have hj_ne := intercalate_nl_ne_nil _ hne2.1 hne2.2
    have hsj := splitlines_intercalate _ hne2.1 hbfree hne2.2
    have h1 : normalize_markdown_bullets s =
        List.intercalate ['\n'] (normEmits (splitlines s) false [] none) := by
      simp only [normalize_markdown_bullets]
      rw [if_neg (by simp [List.isEmpty_iff, hs]), hout]
      rfl
    rw [h1]
    simp only [normalize_markdown_bullets]
    rw [if_neg (by simp [List.isEmpty_iff, hj_ne])]
    rw [normLoop_eq_emits, hsj]
    simp only [List.nil_append]
    rw [show (List.getLast? ([] : List (List Char))) = none from rfl]
    rw [emits_idem (splitlines s) false [] [] none Iff.rfl rfl]

/-- Closed instance of `c2_idempotence_amended`. -/
theorem c2_idempotence_amended_witness :
    normalize_markdown_bullets
        (normalize_markdown_bullets ('a' :: '\n' :: 'b' :: [])) =
      normalize_markdown_bullets ('a' :: '\n' :: 'b' :: []) :=
  c2_idempotence_amended ('a' :: '\n' :: 'b' :: []) (by decide)

/-- C10 counterexample.  The input of the letter a followed by a vertical
tab does not end with a newline, yet appending a newline changes the
normalizer's output: the vertical tab is itself a line boundary for the
splitter, so the appended newline creates one more (empty) line. -/
theorem c10_newline_counterexample :
    ('a' :: '\x0b' :: []).getLast? ≠ some '\n' ∧
      normalize_markdown_bullets (('a' :: '\x0b' :: []) ++ ['\n']) ≠
        normalize_markdown_bullets ('a' :: '\x0b' :: []) := by decide

/-- C10 amended.  The normalizer never preserves a single trailing
newline: for every string whose final character is not one of the line
boundaries recognized by the splitter, appending a newline does not change
the output; in particular the letter a followed by a newline normalizes to
the bare letter a. -/
theorem c10_newline_amended :
    (∀ s : List Char,
        (∀ c, s.getLast? = some c → isLineBoundary c = false) →
        normalize_markdown_bullets (s ++ ['\n']) =
          normalize_markdown_bullets s) ∧
    normalize_markdown_bullets ('a' :: '\n' :: []) = ['a'] := by
  constructor
  · intro s h
    by_cases hs : s = []
    · subst hs; decide
    · have hsp := splitlines_snoc_nl hs h
      simp only [normalize_markdown_bullets]
      rw [if_neg (by simp), if_neg (by simp [List.isEmpty_iff, hs]), hsp]
  · decide

/-- Closed instance of `c10_newline_amended`. -/
theorem c10_newline_amended_witness :
    normalize_markdown_bullets (('a' :: []) ++ ['\n']) =
      normalize_markdown_bullets ('a' :: []) :=
  c10_newline_amended.1 ('a' :: [])
    (by intro c hc; simp at hc; subst hc; decide)


/-! ### Sanitizer lemmas -/

theorem escapeChar_no_lt (c : Char) : ∀ d ∈ escapeChar c, d ≠ '<' := by
  intro d hd
  by_cases h1 : c = '<'
  · simp [escapeChar, h1] at hd
    rcases hd with h | h | h | h <;> simp [h]
  · by_cases h2 : c = '>'
    · simp [escapeChar, h1, h2] at hd
      rcases hd with h | h | h | h <;> simp [h]
    · by_cases h3 : c = '&'
      · simp [escapeChar, h1, h2, h3] at hd
        rcases hd with h | h | h | h | h <;> simp [h]
      · simp [escapeChar, h1, h2, h3] at hd
        subst hd; exact h1

theorem escAttrChar_no_lt (c : Char) : ∀ d ∈ escAttrChar c, d ≠ '<' := by
  intro d hd
  by_cases h : c = '"'
  · simp [escAttrChar, h] at hd
    rcases hd with h | h | h | h | h | h <;> simp [h]
  · simp [escAttrChar, h] at hd
    exact escapeChar_no_lt c d hd

theorem escAttr_no_lt (v : List Char) : ∀ d ∈ escAttr v, d ≠ '<' := by
  intro d hd
  simp only [escAttr, List.mem_flatten, List.mem_map] at hd
  obtain ⟨m, ⟨c, _, hm⟩, hdm⟩ := hd
  subst hm
  exact escAttrChar_no_lt c d hdm

theorem allowedTags_no_lt : ∀ t ∈ allowedTags, ∀ d ∈ t, d ≠ '<' := by decide

theorem allowedAttr_names {t a : List Char} (h : allowedAttr t a = true) :
    ∀ d ∈ a, d ≠ '<' := by
  have hmem : a = "href".toList ∨ a = "title".toList ∨ a = "src".toList ∨
      a = "alt".toList ∨ a = "class".toList := by
    simp only [allowedAttr, Bool.or_eq_true, Bool.and_eq_true,
      decide_eq_true_eq] at h
    tauto
  rcases hmem with h | h | h | h | h <;> subst h <;> decide

theorem serializeAttrs_no_lt {nm : List Char}
    {attrs : List (List Char × List Char)}
    (h : ∀ p ∈ attrs, allowedAttr nm p.1 = true) :
    ∀ d ∈ serializeAttrs attrs, d ≠ '<' := by
  intro d hd he
  subst he
  simp only [serializeAttrs, List.mem_flatten, List.mem_map] at hd
  obtain ⟨m, ⟨p, hp, hm⟩, hdm⟩ := hd
  subst hm
  simp only [List.mem_cons, List.mem_append, List.mem_singleton] at hdm
  rcases hdm with ((h1 | h1) | h1 | h1 | h1) | h1
  · exact absurd h1 (by decide)
  · exact allowedAttr_names (h p hp) '<' h1 rfl
  · exact absurd h1 (by decide)
  · exact absurd h1 (by decide)
  · exact escAttr_no_lt p.2 '<' h1 rfl
  · exact absurd h1 (by decide)

theorem startsAllowedTag_shift {b : List Char} {k : Nat} (a : List Char)
    (h : startsAllowedTag b k) : startsAllowedTag (a ++ b) (a.length + k) := by
  obtain ⟨t, ht, hcase⟩ := h
  have hdrop : (a ++ b).drop (a.length + k) = b.drop k := by
    rw [← List.drop_drop, List.drop_left]
  exact ⟨t, ht, by rwa [hdrop]⟩

theorem startsAllowedTag_cons {b : List Char} {k : Nat} (c : Char)
    (h : startsAllowedTag b k) : startsAllowedTag (c :: b) (k + 1) := by
  obtain ⟨t, ht, hcase⟩ := h
  exact ⟨t, ht, by simpa using hcase⟩

theorem wf_prepend_text {a b : List Char}
    (ha : ∀ c ∈ a, c ≠ '<')
    (hb : ∀ i, b[i]? = some '<' → startsAllowedTag b i) :
    ∀ i, (a ++ b)[i]? = some '<' → startsAllowedTag (a ++ b) i := by
  intro i hi
  by_cases hlt : i < a.length
  · rw [List.getElem?_append_left hlt] at hi
    exact absurd rfl (ha '<' (List.getElem?_mem hi))
  · push_neg at hlt
    rw [List.getElem?_append_right hlt] at hi
    have h2 := hb (i - a.length) hi
    have : i = a.length + (i - a.length) := by omega
    rw [this]
    exact startsAllowedTag_shift a h2

theorem wf_prepend_tag {t body rest : List Char}
    (ht : t ∈ allowedTags)
    (hbody : ∀ c ∈ body, c ≠ '<')
    (hshape : (∃ u, body = t ++ '>' :: u) ∨ (∃ u, body = t ++ ' ' :: u) ∨
      (∃ u, body = '/' :: (t ++ '>' :: u)))
    (hrest : ∀ i, rest[i]? = some '<' → startsAllowedTag rest i) :
    ∀ i, ('<' :: (body ++ rest))[i]? = some '<' →
      startsAllowedTag ('<' :: (body ++ rest)) i := by
  intro i hi
  cases i with
  | zero =>
      refine ⟨t, ht, ?_⟩
      rcases hshape with ⟨u, hu⟩ | ⟨u, hu⟩ | ⟨u, hu⟩
      · exact Or.inl ⟨u ++ rest, by simp [hu]⟩
      · exact Or.inr (Or.inl ⟨u ++ rest, by simp [hu]⟩)
      · exact Or.inr (Or.inr ⟨u ++ rest, by simp [hu]⟩)
  | succ j =>
      rw [List.getElem?_cons_succ] at hi
      have h2 := wf_prepend_text hbody hrest j hi
      exact startsAllowedTag_cons '<' h2



theorem filterToks_kept : ∀ ts : List Tok, ∀ tok ∈ filterToks ts, keptTok tok := by
  intro ts
  induction ts with
  | nil => intro tok ht; simp [filterToks] at ht
  | cons t0 rest ih =>
      intro tok ht
      cases t0 with
      | txt c =>
          simp only [filterToks] at ht
          rcases List.mem_cons.1 ht with he | he
          · subst he; trivial
          · exact ih tok he
      | tagO nm attrs =>
          simp only [filterToks] at ht
          by_cases hnm : nm ∈ allowedTags
          · rw [if_pos hnm] at ht
            rcases List.mem_cons.1 ht with he | he
            · subst he
              exact ⟨hnm, fun p hp => (List.mem_filter.1 hp).2⟩
            · exact ih tok he
          · rw [if_neg hnm] at ht
            exact ih tok ht
      | tagC nm =>
          simp only [filterToks] at ht
          by_cases hnm : nm ∈ allowedTags
          · rw [if_pos hnm] at ht
            rcases List.mem_cons.1 ht with he | he
            · subst he; exact hnm
            · exact ih tok he
          · rw [if_neg hnm] at ht
            exact ih tok ht

theorem serializeToks_wf :
    ∀ ts : List Tok, (∀ tok ∈ ts, keptTok tok) →
      ∀ i, (serializeToks ts)[i]? = some '<' →
        startsAllowedTag (serializeToks ts) i := by
  intro ts
  induction ts with
  | nil => intro _ i hi; simp [serializeToks] at hi
  | cons tok rest ih =>
      intro h
      have hks : ∀ t ∈ rest, keptTok t := fun t ht => h t (List.mem_cons_of_mem _ ht)
      have hser : serializeToks (tok :: rest) =
          serializeTok tok ++ serializeToks rest := by
        simp [serializeToks]
      rw [hser]
      cases tok with
      | txt c =>
          exact wf_prepend_text (escapeChar_no_lt c) (fun j hj => ih hks j hj)
      | tagO nm attrs =>
          have hk := h (Tok.tagO nm attrs) (by simp)
          obtain ⟨hnm, hattrs⟩ := hk
          cases attrs with
          | nil =>
              have hgq : serializeTok (Tok.tagO nm []) ++ serializeToks rest =
                  '<' :: ((nm ++ '>' :: []) ++ serializeToks rest) := by
                simp [serializeTok, serializeAttrs]
              rw [hgq]
              refine wf_prepend_tag hnm ?_ (Or.inl ⟨[], rfl⟩)
                (fun j hj => ih hks j hj)
              intro c hc
              rcases List.mem_append.1 hc with hc | hc
              · exact allowedTags_no_lt nm hnm c hc
              · simp at hc; subst hc; decide
          | cons p ps =>
              obtain ⟨q, hq⟩ : ∃ q, serializeAttrs (p :: ps) = ' ' :: q :=
                ⟨p.1 ++ '=' :: '\"' :: (escAttr p.2 ++ '\"' :: serializeAttrs ps),
                  by simp [serializeAttrs]⟩
              have hgq : serializeTok (Tok.tagO nm (p :: ps)) ++ serializeToks rest =
                  '<' :: ((nm ++ ' ' :: (q ++ '>' :: [])) ++ serializeToks rest) := by
                simp [serializeTok, hq]
              rw [hgq]
              refine wf_prepend_tag hnm ?_ (Or.inr (Or.inl ⟨q ++ '>' :: [], rfl⟩))
                (fun j hj => ih hks j hj)
              intro c hc
              rcases List.mem_append.1 hc with hc | hc
              · exact allowedTags_no_lt nm hnm c hc
              · rcases List.mem_cons.1 hc with hc | hc
                · subst hc; decide
                · rcases List.mem_append.1 hc with hc | hc
                  · refine serializeAttrs_no_lt hattrs c ?_
                    rw [hq]
                    exact List.mem_cons_of_mem _ hc
                  · simp at hc; subst hc; decide
      | tagC nm =>
          have hk := h (Tok.tagC nm) (by simp)
          have hgq : serializeTok (Tok.tagC nm) ++ serializeToks rest =
              '<' :: (('/' :: (nm ++ '>' :: [])) ++ serializeToks rest) := by
            simp [serializeTok]
          rw [hgq]
          refine wf_prepend_tag hk ?_ (Or.inr (Or.inr ⟨[], rfl⟩))
            (fun j hj => ih hks j hj)
          intro c hc
          rcases List.mem_cons.1 hc with hc | hc
          · subst hc; decide
          · rcases List.mem_append.1 hc with hc | hc
            · exact allowedTags_no_lt nm hk c hc
            · simp at hc; subst hc; decide

theorem sanitize_wf :
    ∀ (input : List Char) (i : Nat),
      (sanitizeHtml input)[i]? = some '<' →
      startsAllowedTag (sanitizeHtml input) i := by
  intro input i hi
  exact serializeToks_wf _ (filterToks_kept (tokenize input)) i hi

theorem startsWith_append_self (x u : List Char) :
    startsWith (x ++ u) x = true := by
  induction x with
  | nil => simp [startsWith]
  | cons c cs ih => simp [startsWith, ih]

theorem startsWith_mono :
    ∀ (x y l : List Char), startsWith l x = true → startsWith l y = true →
      x.length ≤ y.length → startsWith y x = true := by
  intro x
  induction x with
  | nil => intro y l _ _ _; cases y <;> simp [startsWith]
  | cons c cs ih =>
      intro y l hx hy hlen
      cases l with
      | nil => simp [startsWith] at hx
      | cons a as =>
          cases y with
          | nil => simp at hlen
          | cons b bs =>
              simp only [startsWith, Bool.and_eq_true, decide_eq_true_eq]
                at hx hy ⊢
              obtain ⟨hac, hx2⟩ := hx
              obtain ⟨hab, hy2⟩ := hy
              exact ⟨hab.symm.trans hac, ih bs as hx2 hy2 (by simpa using hlen)⟩

theorem allowed_script_free :
    ∀ t ∈ allowedTags,
      startsWith ('s':: 'c':: 'r':: 'i':: 'p':: 't'::[]) (t ++ ['>']) = false ∧
      startsWith ('s':: 'c':: 'r':: 'i':: 'p':: 't'::[]) (t ++ [' ']) = false ∧
      startsWith (t ++ ['>']) ('s':: 'c':: 'r':: 'i':: 'p':: 't'::[]) = false ∧
      startsWith (t ++ [' ']) ('s':: 'c':: 'r':: 'i':: 'p':: 't'::[]) = false := by
  decide

theorem no_script_eq {t : List Char} (ht : t ∈ allowedTags) {sep : Char}
    (hsep : sep = '>' ∨ sep = ' ') (u w : List Char) :
    ¬('s':: 'c':: 'r':: 'i':: 'p':: 't'::w = t ++ sep :: u) := by
  intro he
  have h1 : startsWith ('s':: 'c':: 'r':: 'i':: 'p':: 't'::w) (t ++ [sep]) = true := by
    rw [he, show t ++ sep :: u = (t ++ [sep]) ++ u by simp]
    exact startsWith_append_self _ _
  have h2 : startsWith ('s':: 'c':: 'r':: 'i':: 'p':: 't'::w)
      ('s':: 'c':: 'r':: 'i':: 'p':: 't'::[]) = true := by
    rw [show ('s':: 'c':: 'r':: 'i':: 'p':: 't'::w) =
      ('s':: 'c':: 'r':: 'i':: 'p':: 't'::[]) ++ w by simp]
    exact startsWith_append_self _ _
  by_cases hlen :
      (t ++ [sep]).length ≤ ('s':: 'c':: 'r':: 'i':: 'p':: 't'::([] : List Char)).length
  · have h3 := startsWith_mono (t ++ [sep])
      ('s':: 'c':: 'r':: 'i':: 'p':: 't'::[]) _ h1 h2 hlen
    rcases hsep with h | h <;> subst h
    · simp [(allowed_script_free t ht).1] at h3
    · simp [(allowed_script_free t ht).2.1] at h3
  · push_neg at hlen
    have h3 := startsWith_mono ('s':: 'c':: 'r':: 'i':: 'p':: 't'::[])
      (t ++ [sep]) _ h2 h1 (by omega)
    rcases hsep with h | h <;> subst h
    · simp [(allowed_script_free t ht).2.2.1] at h3
    · simp [(allowed_script_free t ht).2.2.2] at h3



/-- C5.  On the preview path the sanitized result contains only
allow-listed markup: every opening angle bracket in the output begins an
allow-listed opening or closing tag, the output never contains the script
substring led by an opening bracket for any input, surviving open tags
carry only allow-listed per-tag attributes, and the concrete example shows
a disallowed tag being removed (not escaped) with its nested content
preserved as text while an allowed attribute is kept. -/
theorem c5_sanitizer_allowlist :
    (∀ (input : List Char) (i : Nat),
        (sanitizeHtml input)[i]? = some '<' →
        startsAllowedTag (sanitizeHtml input) i) ∧
    (∀ (input a b : List Char),
        sanitizeHtml input ≠
          a ++ ('<':: 's':: 'c':: 'r':: 'i':: 'p':: 't'::[]) ++ b) ∧
    (∀ (input : List Char) (nm : List Char)
        (attrs : List (List Char × List Char)),
        Tok.tagO nm attrs ∈ filterToks (tokenize input) →
        nm ∈ allowedTags ∧ ∀ p ∈ attrs, allowedAttr nm p.1 = true) ∧
    sanitizeHtml "<script>alert(1)</script><p class=\"x\">ok</p>".toList =
      "alert(1)<p>ok</p>".toList := by
  refine ⟨sanitize_wf, ?_, ?_, by decide⟩
  · intro input a b heq
    have hidx : (sanitizeHtml input)[a.length]? = some '<' := by
      rw [heq, List.append_assoc, List.getElem?_append_right (le_refl a.length)]
      simp
    have hst := sanitize_wf input a.length hidx
    rw [heq, List.append_assoc] at hst
    obtain ⟨t, ht, hcase⟩ := hst
    have hdrop : (a ++ (('<':: 's':: 'c':: 'r':: 'i':: 'p':: 't'::[]) ++ b)).drop
        a.length = ('<':: 's':: 'c':: 'r':: 'i':: 'p':: 't'::[]) ++ b :=
      List.drop_left a _
    rcases hcase with ⟨u, hu⟩ | ⟨u, hu⟩ | ⟨u, hu⟩ <;> rw [hdrop] at hu <;>
      simp only [List.cons_append, List.nil_append, List.cons.injEq,
        true_and] at hu
    · exact no_script_eq ht (Or.inl rfl) u b hu
    · exact no_script_eq ht (Or.inr rfl) u b hu
    · simp at hu
  · intro input nm attrs hmem
    exact filterToks_kept (tokenize input) _ hmem

/-- Closed instance of `c5_sanitizer_allowlist`. -/
theorem c5_sanitizer_allowlist_witness :
    startsAllowedTag (sanitizeHtml "<em>a</em>".toList) 0 :=
  c5_sanitizer_allowlist.1 "<em>a</em>".toList 0 (by decide)

end MdPdf
